import Mathlib

/-!
Verification of the demo runner in `src/roqoqo/standalone/src/main.rs`.

The source file defines a single `main` function whose body is seven
expression statements, each calling one demo routine with no arguments and
discarding the result:

    fn main() {
        entangling_circuit_snippet();
        measuring_qubits();
        measuring_observables();
        serialization_quantum_program();
        measurement_main();
        teleportation_main();
        run_simple_vha();
    }

The bodies of the seven routines live in modules that are not part of the
given source, so their behavior is abstracted: a behavior function assigns
to each routine either `some v` (the routine completes normally, returning
the discarded value `v`) or `none` (the routine fails irrecoverably, i.e.
panics or diverges, which in Rust aborts the straight-line sequence).
-/

namespace RoqoqoStandalone

/-- The seven demo routines named in `main.rs`, one constructor per routine,
in the order they are declared and called in the source. -/
inductive Demo
  | entangling_circuit_snippet
  | measuring_qubits
  | measuring_observables
  | serialization_quantum_program
  | measurement_main
  | teleportation_main
  | run_simple_vha
deriving DecidableEq, Fintype

/-- One statement of the body of `main`: a call expression statement
`f(args);`.  `callee` is the routine called; `args` lists the earlier
routines whose results are passed as arguments (in the source every
argument list is empty); `bindsResult` records whether the statement binds
the call's return value to a variable (in the source every statement is a
bare expression statement, which discards the value). -/
structure CallStmt where
  callee : Demo
  args : List Demo
  bindsResult : Bool
deriving DecidableEq

/-- The body of `main` in `main.rs`, statement by statement: seven calls,
each with an empty argument list and a discarded result. -/
def mainBody : List CallStmt :=
  [⟨Demo.entangling_circuit_snippet, [], false⟩,
   ⟨Demo.measuring_qubits, [], false⟩,
   ⟨Demo.measuring_observables, [], false⟩,
   ⟨Demo.serialization_quantum_program, [], false⟩,
   ⟨Demo.measurement_main, [], false⟩,
   ⟨Demo.teleportation_main, [], false⟩,
   ⟨Demo.run_simple_vha, [], false⟩]

/-- The sequence of routines `main` calls, in the declared order. -/
def mainCalls : List Demo := mainBody.map CallStmt.callee

/-- Run a list of calls in order under a behavior `beh`.  Returns the trace
of routines actually invoked together with `true` when every call completed
normally, or the trace up to and including the first failing call together
with `false` when some call failed (the failure aborts the sequence, as a
Rust panic does). -/
def runCallsV {α : Type} (beh : Demo → Option α) : List Demo → List Demo × Bool
  | [] => ([], true)
  | d :: ds =>
      match beh d with
      | some _ => ((runCallsV beh ds).1.cons d, (runCallsV beh ds).2)
      | none => ([d], false)

/-- Execute `main` under behavior `beh`: run the declared call list. -/
def runMainV {α : Type} (beh : Demo → Option α) : List Demo × Bool :=
  runCallsV beh mainCalls

/-- Big-step execution relation for a list of calls: `ExecR beh l o` holds
when running the calls `l` in order under behavior `beh` can produce
outcome `o` (invoked trace, normal-completion flag).  Mirrors `runCallsV`
as a relation, so that determinism of the runner is a theorem rather than
a consequence of using a function. -/
inductive ExecR {α : Type} (beh : Demo → Option α) : List Demo → List Demo × Bool → Prop
  | nil : ExecR beh [] ([], true)
  | step_ok {d ds v tr r} : beh d = some v → ExecR beh ds (tr, r) →
      ExecR beh (d :: ds) (d :: tr, r)
  | step_fail {d ds} : beh d = none → ExecR beh (d :: ds) ([d], false)

/-- Observable events of a run: a routine starts, a routine finishes, the
process exits. -/
inductive Event
  | start : Demo → Event
  | finish : Demo → Event
  | unit_exit
deriving DecidableEq

/-- The event trace of running a call list under `beh`: each call that is
reached emits a start event and, if it completes, a finish event; after the
last call completes the process exits.  A failing call emits only its start
event and the exit event is never reached. -/
def eventsOf {α : Type} (beh : Demo → Option α) : List Demo → List Event
  | [] => [Event.unit_exit]
  | d :: ds =>
      match beh d with
      | some _ => Event.start d :: Event.finish d :: eventsOf beh ds
      | none => [Event.start d]

/-- The event trace of `main` under behavior `beh`. -/
def mainEvents {α : Type} (beh : Demo → Option α) : List Event :=
  eventsOf beh mainCalls

/-- Process-level entry point.  The Rust `fn main()` takes no parameters,
and its body contains no read of command-line arguments, environment
variables, files or any other input (no `std::env`, no I/O call appears in
the source), so the call sequence the process issues is the same fixed list
for every invocation, whatever `argv` and environment it is started with. -/
def mainProcCalls (_argv : List String) (_envv : List (String × String)) :
    List Demo :=
  mainCalls

/-- If every call in the list completes normally, the run invokes exactly
the whole list, in order, and reports normal completion. -/
theorem runCallsV_all_ok {α : Type} (beh : Demo → Option α) :
    ∀ l : List Demo, (∀ d ∈ l, (beh d).isSome = true) →
      runCallsV beh l = (l, true) := by
  intro l
  induction l with
  | nil => intro _; rfl
  | cons d ds ih =>
      intro h
      have hd : (beh d).isSome = true := h d (List.mem_cons_self d ds)
      obtain ⟨v, hv⟩ := Option.isSome_iff_exists.mp hd
      have hds := ih (fun e he => h e (List.mem_cons_of_mem d he))
      simp [runCallsV, hv, hds]

/-- Characterization of a run: either every call succeeded and the run is
the whole list with normal completion, or the run stopped at the first
failing call, having invoked exactly the calls up to and including it. -/
theorem runCallsV_char {α : Type} (beh : Demo → Option α) :
    ∀ l : List Demo,
      (runCallsV beh l = (l, true) ∧ ∀ d ∈ l, (beh d).isSome = true)
      ∨ ((runCallsV beh l).2 = false ∧ ∃ k, ∃ hk : k < l.length,
          (runCallsV beh l).1 = l.take (k + 1) ∧
          beh (l.get ⟨k, hk⟩) = none ∧
          ∀ j, ∀ hj : j < k,
            (beh (l.get ⟨j, Nat.lt_trans hj hk⟩)).isSome = true) := by
  intro l
  induction l with
  | nil => exact Or.inl ⟨rfl, by simp⟩
  | cons d ds ih =>
      cases hd : beh d with
      | none =>
          refine Or.inr ⟨by simp [runCallsV, hd], 0, by simp, ?_, ?_, ?_⟩
          · simp [runCallsV, hd]
          · simpa using hd
          · intro j hj; omega
      | some v =>
          rcases ih with ⟨hrun, hall⟩ | ⟨hfail, k, hk, htr, hnone, hpre⟩
          · refine Or.inl ⟨by simp [runCallsV, hd, hrun], ?_⟩
            intro e he
            rcases List.mem_cons.mp he with rfl | he
            · simp [hd]
            · exact hall e he
          · refine Or.inr ⟨by simp [runCallsV, hd, hfail], k + 1, by simpa using Nat.succ_lt_succ hk, ?_, ?_, ?_⟩
            · simp [runCallsV, hd, htr]
            · simpa using hnone
            · intro j hj
              cases j with
              | zero => simp [hd]
              | succ i =>
                  have hi : i < k := Nat.lt_of_succ_lt_succ hj
                  simpa using hpre i hi

/-- The trace produced by a run depends only on which calls succeed, never
on the values they return: two behaviors that agree on success agree on the
run. -/
theorem runCallsV_congr {α β : Type} (beh1 : Demo → Option α)
    (beh2 : Demo → Option β) (h : ∀ d, (beh1 d).isSome = (beh2 d).isSome) :
    ∀ l : List Demo, runCallsV beh1 l = runCallsV beh2 l := by
  intro l
  induction l with
  | nil => rfl
  | cons d ds ih =>
      cases h1 : beh1 d with
      | none =>
          have h2 : beh2 d = none := by
            have := h d
            rw [h1] at this
            simpa [Option.isSome_iff_exists] using this.symm
          simp [runCallsV, h1, h2]
      | some v =>
          have h2 : (beh2 d).isSome = true := by
            have := h d
            rw [h1] at this
            exact this.symm ▸ rfl
          obtain ⟨w, hw⟩ := Option.isSome_iff_exists.mp h2
          simp [runCallsV, h1, hw, ih]

/-- The functional semantics is contained in the relational one: running a
call list produces an outcome related to it by `ExecR`. -/
theorem execR_run {α : Type} (beh : Demo → Option α) :
    ∀ l : List Demo, ExecR beh l (runCallsV beh l) := by
  intro l
  induction l with
  | nil => exact ExecR.nil
  | cons d ds ih =>
      cases hd : beh d with
      | none =>
          have : runCallsV beh (d :: ds) = ([d], false) := by simp [runCallsV, hd]
          rw [this]
          exact ExecR.step_fail hd
      | some v =>
          have : runCallsV beh (d :: ds) =
              (d :: (runCallsV beh ds).1, (runCallsV beh ds).2) := by
            simp [runCallsV, hd]
          rw [this]
          exact ExecR.step_ok hd (by simpa using ih)

/-- The execution relation is deterministic on every call list. -/
theorem execR_det {α : Type} (beh : Demo → Option α) :
    ∀ l : List Demo, ∀ o1 o2 : List Demo × Bool,
      ExecR beh l o1 → ExecR beh l o2 → o1 = o2 := by
  intro l o1 o2 h1
  induction h1 generalizing o2 with
  | nil => intro h2; cases h2; rfl
  | step_ok hd _ ih =>
      intro h2
      cases h2 with
      | step_ok hd2 htl2 =>
          have := ih _ htl2
          simp_all
      | step_fail hd2 => rw [hd] at hd2; cases hd2
  | step_fail hd =>
      intro h2
      cases h2 with
      | step_ok hd2 _ => rw [hd] at hd2; cases hd2
      | step_fail _ => rfl

/-- When every call succeeds, the event trace is: for each call in order, a
start event immediately followed by its finish event, and then the exit
event. -/
theorem eventsOf_all_ok {α : Type} (beh : Demo → Option α) :
    ∀ l : List Demo, (∀ d ∈ l, (beh d).isSome = true) →
      eventsOf beh l =
        l.flatMap (fun d => [Event.start d, Event.finish d]) ++
          [Event.unit_exit] := by
  intro l
  induction l with
  | nil => intro _; rfl
  | cons d ds ih =>
      intro h
      obtain ⟨v, hv⟩ :=
        Option.isSome_iff_exists.mp (h d (List.mem_cons_self d ds))
      have hds := ih (fun e he => h e (List.mem_cons_of_mem d he))
      simp [eventsOf, hv, hds]

/-- A later element of a duplicate-free list does not occur among its first
`n` elements. -/
theorem not_mem_take_of_nodup {γ : Type} (l : List γ) (hl : l.Nodup)
    (j : Nat) (hj : j < l.length) (n : Nat) (hnj : n ≤ j) :
    l.get ⟨j, hj⟩ ∉ l.take n := by
  intro hmem
  obtain ⟨i, hi, hget⟩ := List.getElem_of_mem hmem
  have hi' : i < l.length := Nat.lt_of_lt_of_le hi (by simp [List.length_take])
  have hilen : i < n := by
    have := hi
    simp [List.length_take] at this
    omega
  have : l[i] = l[j] := by
    have := hget
    rwa [List.getElem_take] at this
  have hij : i = j := List.Nodup.getElem_inj_iff hl |>.mp this
  omega

/-- C1: for every invocation of the runner, if every demo routine completes
normally, then the runner executes the whole declared call list with normal
completion, each of the seven routines occurs exactly once in that list,
and the list is exactly the seven routines in the declared order. -/
theorem claim_c1 {α : Type} (beh : Demo → Option α)
    (h : ∀ d : Demo, (beh d).isSome = true) :
    runMainV beh = (mainCalls, true) ∧
    (∀ d : Demo, mainCalls.count d = 1) ∧
    mainCalls =
      [Demo.entangling_circuit_snippet, Demo.measuring_qubits,
       Demo.measuring_observables, Demo.serialization_quantum_program,
       Demo.measurement_main, Demo.teleportation_main,
       Demo.run_simple_vha] :=
  ⟨runCallsV_all_ok beh mainCalls (fun d _ => h d), by decide, rfl⟩

/-- Witness for C1 at the behavior in which every routine succeeds
returning 0. -/
theorem claim_c1_witness :
    runMainV (fun _ : Demo => (some 0 : Option Nat)) = (mainCalls, true) :=
  (claim_c1 (fun _ : Demo => (some 0 : Option Nat)) (fun _ => rfl)).1

/-- C2: no data dependency is threaded between the seven calls.  No
statement of the body of main binds the result of its call (every result
is discarded), no statement passes an earlier result as an argument, and
semantically the run is unchanged when the values returned by the routines
change, as long as each routine's success is unchanged. -/
theorem claim_c2 {α β : Type} (beh1 : Demo → Option α)
    (beh2 : Demo → Option β)
    (h : ∀ d : Demo, (beh1 d).isSome = (beh2 d).isSome) :
    runMainV beh1 = runMainV beh2 ∧
    ∀ s ∈ mainBody, s.bindsResult = false ∧ s.args = [] :=
  ⟨runCallsV_congr beh1 beh2 h mainCalls, by decide⟩

/-- Witness for C2 at two behaviors that agree on success but return
values of different types. -/
theorem claim_c2_witness :
    runMainV (fun _ : Demo => (some 0 : Option Nat)) =
      runMainV (fun _ : Demo => (some true : Option Bool)) :=
  (claim_c2 (fun _ : Demo => (some 0 : Option Nat))
    (fun _ : Demo => (some true : Option Bool)) (fun _ => rfl)).1

/-- C3: under every behavior of the routines, the runner either completes
normally having invoked the whole declared list (all routines succeeded),
or reports failure having invoked exactly the calls up to and including
the first failing routine: no recovery, no other behavior. -/
theorem claim_c3 {α : Type} (beh : Demo → Option α) :
    (runMainV beh = (mainCalls, true) ∧
      ∀ d ∈ mainCalls, (beh d).isSome = true)
    ∨ ((runMainV beh).2 = false ∧ ∃ k, ∃ hk : k < mainCalls.length,
        (runMainV beh).1 = mainCalls.take (k + 1) ∧
        beh (mainCalls.get ⟨k, hk⟩) = none ∧
        ∀ j, ∀ hj : j < k,
          (beh (mainCalls.get ⟨j, Nat.lt_trans hj hk⟩)).isSome = true) :=
  runCallsV_char beh mainCalls

/-- C4: execution is straight-line with no repetition: the call list is
duplicate-free, every earlier call finishes before any later call starts,
the exit event is the last event of the trace, and exit happens only after
every call has finished. -/
theorem claim_c4 {α : Type} (beh : Demo → Option α)
    (h : ∀ d : Demo, (beh d).isSome = true) :
    mainCalls.Nodup ∧
    (∀ i j : Fin mainCalls.length, i < j →
      (mainEvents beh).indexOf (Event.finish (mainCalls.get i)) <
        (mainEvents beh).indexOf (Event.start (mainCalls.get j))) ∧
    (mainEvents beh).getLast? = some Event.unit_exit ∧
    ∀ i : Fin mainCalls.length,
      (mainEvents beh).indexOf (Event.finish (mainCalls.get i)) <
        (mainEvents beh).indexOf Event.unit_exit := by
  have htr : mainEvents beh =
      mainCalls.flatMap (fun d => [Event.start d, Event.finish d]) ++
        [Event.unit_exit] :=
    eventsOf_all_ok beh mainCalls (fun d _ => h d)
  simp only [mainEvents] at htr
  simp only [mainEvents, htr]
  refine ⟨by decide, by decide, by decide, by decide⟩

/-- Witness for C4 at the behavior in which every routine succeeds. -/
theorem claim_c4_witness :
    (mainEvents (fun _ : Demo => (some 0 : Option Nat))).getLast? =
      some Event.unit_exit :=
  (claim_c4 (fun _ : Demo => (some 0 : Option Nat)) (fun _ => rfl)).2.2.1

/-- C5: the call sequence issued by the process does not depend on the
command line or the environment: any two invocations issue the identical
sequence, namely the fixed declared list. -/
theorem claim_c5 (argv1 argv2 : List String)
    (env1 env2 : List (String × String)) :
    mainProcCalls argv1 env1 = mainProcCalls argv2 env2 ∧
    mainProcCalls argv1 env1 = mainCalls :=
  ⟨rfl, rfl⟩

/-- C7: every statement of the body of main calls its routine with an
empty argument list. -/
theorem claim_c7 : ∀ s ∈ mainBody, s.args = [] := by decide

/-- Witness for C7 at the first statement of the body. -/
theorem claim_c7_witness :
    (⟨Demo.entangling_circuit_snippet, [], false⟩ : CallStmt).args = [] :=
  claim_c7 ⟨Demo.entangling_circuit_snippet, [], false⟩ (by decide)

/-- C8: if the routine at position k of the call list fails, then the
routine at any later position j is never invoked: it does not occur in the
trace of the run. -/
theorem claim_c8 {α : Type} (beh : Demo → Option α) (k j : Nat)
    (hk : k < mainCalls.length) (hj : j < mainCalls.length) (hkj : k < j)
    (hfail : beh (mainCalls.get ⟨k, hk⟩) = none) :
    mainCalls.get ⟨j, hj⟩ ∉ (runMainV beh).1 := by
  rcases runCallsV_char beh mainCalls with
    ⟨_, hall⟩ | ⟨_, m, hm, htr, _, hpre⟩
  · have := hall (mainCalls.get ⟨k, hk⟩) (List.get_mem _ _ hk)
    rw [hfail] at this
    cases this
  · have hmk : m ≤ k := by
      by_contra hgt
      push_neg at hgt
      have := hpre k hgt
      rw [hfail] at this
      cases this
    have htr' : (runMainV beh).1 = mainCalls.take (m + 1) := htr
    rw [htr']
    exact not_mem_take_of_nodup mainCalls (by decide) j hj (m + 1) (by omega)

/-- Witness for C8: when the second routine fails, the third is not in the
trace. -/
theorem claim_c8_witness :
    mainCalls.get ⟨2, by decide⟩ ∉
      (runMainV (fun d : Demo =>
        if d = Demo.measuring_qubits then (none : Option Nat)
        else some 0)).1 :=
  claim_c8 (fun d : Demo =>
      if d = Demo.measuring_qubits then (none : Option Nat) else some 0)
    1 2 (by decide) (by decide) (by decide) (by decide)

/-- C9: the runner is deterministic: any two executions of the declared
call list under the same behavior of the routines produce the same trace
and the same completion flag. -/
theorem claim_c9 {α : Type} (beh : Demo → Option α)
    (o1 o2 : List Demo × Bool) (h1 : ExecR beh mainCalls o1)
    (h2 : ExecR beh mainCalls o2) : o1 = o2 :=
  execR_det beh mainCalls o1 o2 h1 h2

/-- Witness for C9 at the behavior in which every routine succeeds. -/
theorem claim_c9_witness :
    ((mainCalls, true) : List Demo × Bool) = (mainCalls, true) :=
  claim_c9 (fun _ : Demo => (some 0 : Option Nat)) (mainCalls, true)
    (mainCalls, true)
    (execR_run (fun _ : Demo => (some 0 : Option Nat)) mainCalls)
    (execR_run (fun _ : Demo => (some 0 : Option Nat)) mainCalls)

end RoqoqoStandalone
